import Mathlib

/-!
Shallow embedding of `extract_filetype_from_zip` (src/main.rs) and proofs
about its observable behavior.

The program extracts, from one ZIP archive or from all `.zip` files in a
directory, every file entry whose extension matches a filter, writing the
decompressed bytes flat into an output directory under the entry's basename.

Modelling conventions:
- Byte streams are `List Nat`.
- The output directory is a flat association list from basename to bytes;
  a later write shadows an earlier one (lookup finds the newest entry first),
  matching `File::create` truncate-and-rewrite semantics.
- Fallible I/O is modelled explicitly: archives may fail to open, entry
  reads may fail, and writes succeed or fail according to a `canWrite`
  oracle on the target basename.
- Rust `str::to_lowercase` is modelled per character by `Char.toLower`
  (ASCII lowering); this covers the ASCII fragment exercised by the program.
-/

namespace ZipExtract

/-- A decompressed byte stream. -/
abbrev Bytes := List Nat

/-- The output directory: newest write first; lookup takes the first hit. -/
abbrev FS := List (String × Bytes)

/-- Create-or-truncate a file named `n` with contents `d` (`File::create`
followed by `io::copy` in `process_zip_file`). -/
def fsWrite (fs : FS) (n : String) (d : Bytes) : FS := (n, d) :: fs

/-- Contents currently on disk under name `n`, if any. -/
def fsGet (fs : FS) (n : String) : Option Bytes :=
  (fs.find? (fun p => p.1 == n)).map (fun p => p.2)

/-- Model of Rust `str::to_lowercase`, restricted to the ASCII lowering that
`Char.toLower` performs. -/
def rustToLowercase (s : String) : String := String.mk (s.data.map Char.toLower)

/-- Model of `args.extension.trim_start_matches('.')`: drop every leading dot. -/
def trimStartDots (s : String) : String :=
  String.mk (s.data.dropWhile (fun c => c == '.'))

/-- The normalized extension filter built in `main` (line 35):
lower-case, leading dots stripped. -/
def normalizeExt (s : String) : String := rustToLowercase (trimStartDots s)

/-- Model of Rust `str::eq_ignore_ascii_case`. -/
def asciiEqNoCase (a b : String) : Bool :=
  a.data.map Char.toLower == b.data.map Char.toLower

/-- Split a character list on a separator, keeping empty groups
(the behavior of Rust and Lean `splitOn` for a single-character pattern). -/
def splitOnChar (sep : Char) : List Char → List (List Char)
  | [] => [[]]
  | c :: rest =>
    if c == sep then [] :: splitOnChar sep rest
    else
      match splitOnChar sep rest with
      | [] => [[c]]
      | g :: gs => (c :: g) :: gs

/-- Does `pat` occur as a contiguous segment of `s`?
Models Rust `str::contains` for a literal pattern. -/
def containsSeg (pat : List Char) : List Char → Bool
  | [] => pat.isEmpty
  | c :: rest => List.isPrefixOf pat (c :: rest) || containsSeg pat rest

/-- Model of `entry_name.contains("__MACOSX")` (and any literal substring test). -/
def strContains (s pat : String) : Bool := containsSeg pat.data s.data

/-- The normal (non-empty, non-`.`) components of a slash-separated path,
as Rust `Path::components` yields them for a Unix-style relative path. -/
def pathSegments (s : String) : List (List Char) :=
  (splitOnChar '/' s.data).filter (fun t => !t.isEmpty && t ≠ ['.'])

/-- Model of Rust `Path::file_name`: the last component when it is a normal
segment, `none` when the path ends in `..`, is a root, or is empty. -/
def rustFileName (s : String) : Option String :=
  match (pathSegments s).getLast? with
  | none => none
  | some t => if t == ['.', '.'] then none else some (String.mk t)

/-- Model of Rust `path::rsplit_file_at_dot` applied to a file name: the part
after the final dot, with `..` and leading-dot-only names having none. -/
def extOfFileName (f : String) : Option String :=
  if f.data == ['.', '.'] then none
  else
    match splitOnChar '.' f.data with
    | [] => none
    | [_] => none
    | p :: rest =>
      if p.isEmpty && rest.length == 1 then none
      else (rest.getLast?).map String.mk

/-- Model of Rust `Path::extension` on an entry name
(`entry_path.extension()` at src/main.rs line 89). -/
def rustExtension (s : String) : Option String :=
  (rustFileName s).bind extOfFileName

/-- One record inside an archive: stored name, file-vs-directory flag,
decompressed byte stream. -/
structure ZipEntry where
  name : String
  isFile : Bool
  data : Bytes
deriving DecidableEq

/-- The error kinds the program can surface. -/
inductive ZErr where
  | archiveError
  | ioError
deriving DecidableEq

/-- Reading an entry by index (`archive.by_index(i)?`) either yields the
entry or fails. -/
inductive EntryRead where
  | fail
  | ok (e : ZipEntry)
deriving DecidableEq

/-- Opening an archive (`File::open` then `ZipArchive::new`) either fails or
yields the indexed entry sequence. -/
inductive ArchiveOpen where
  | fail
  | ok (entries : List EntryRead)
deriving DecidableEq

/-- The loop body of `process_zip_file` (src/main.rs lines 76-104) for one
entry: skip `__MACOSX` names, skip directories, match the lower-cased
extension against the filter, and write the bytes under the basename.
`canWrite` tells whether `File::create`/`io::copy` succeed on a basename. -/
def processEntry (filter : String) (canWrite : String → Bool) (e : ZipEntry)
    (fs : FS) : Except ZErr FS :=
  if strContains e.name "__MACOSX" then .ok fs
  else if e.isFile then
    match rustExtension e.name with
    | some entryExt =>
      if rustToLowercase entryExt == filter then
        match rustFileName e.name with
        | some fname =>
          if canWrite fname then .ok (fsWrite fs fname e.data)
          else .error .ioError
        | none => .ok fs
      else .ok fs
    | none => .ok fs
  else .ok fs

/-- One iteration of the entry loop including the fallible `by_index` read. -/
def entryStep (filter : String) (canWrite : String → Bool) :
    EntryRead → FS → Except ZErr FS
  | .fail, _ => .error .archiveError
  | .ok e, fs => processEntry filter canWrite e fs

/-- The entry loop of `process_zip_file`: entries in index order, first error
aborts the rest of the archive and propagates. -/
def processEntries (filter : String) (canWrite : String → Bool) :
    List EntryRead → FS → FS × Option ZErr
  | [], fs => (fs, none)
  | r :: rest, fs =>
    match entryStep filter canWrite r fs with
    | .ok fs' => processEntries filter canWrite rest fs'
    | .error er => (fs, some er)

/-- `process_zip_file` for one archive path: open, then run the entry loop. -/
def processArchive (filter : String) (canWrite : String → Bool) :
    ArchiveOpen → FS → FS × Option ZErr
  | .fail, fs => (fs, some .archiveError)
  | .ok es, fs => processEntries filter canWrite es fs

/-- An immediate child of the input directory: its file name, whether it is
a regular file, and what opening it as an archive yields. -/
structure DirChild where
  name : String
  isFile : Bool
  archive : ArchiveOpen
deriving DecidableEq

/-- The selection test of the directory loop (src/main.rs lines 43-49):
a regular file whose extension equals `zip` ignoring ASCII case. -/
def selectZip (c : DirChild) : Bool :=
  c.isFile &&
    (match rustExtension c.name with
     | some x => asciiEqNoCase x "zip"
     | none => false)

/-- The directory loop of `main` (lines 40-55): process each selected child;
a per-archive error is reported and discarded, the loop continues. -/
def processDirChildren (filter : String) (canWrite : String → Bool) :
    List DirChild → FS → FS
  | [], fs => fs
  | c :: rest, fs =>
    if selectZip c then
      processDirChildren filter canWrite rest
        (processArchive filter canWrite c.archive fs).1
    else processDirChildren filter canWrite rest fs

/-- What the input path resolves to: a directory with its immediate
children, a regular file (with its path name and open result), or neither. -/
inductive InputKind where
  | dir (children : List DirChild)
  | file (name : String) (archive : ArchiveOpen)
  | invalid

/-- One invocation of the program: whether `create_dir_all` on the output
succeeds, the raw `--extension` argument, the resolved input, the write
oracle, and the initial output-directory contents. -/
structure MainCfg where
  createDirOk : Bool
  extensionArg : String
  input : InputKind
  canWrite : String → Bool
  fs0 : FS

/-- Observable outcome of a run: final output-directory contents, whether
the output directory was created, and whether the process exited non-zero. -/
structure RunResult where
  fs : FS
  dirCreated : Bool
  exitErr : Bool
deriving DecidableEq

/-- `main` (src/main.rs lines 27-65): create the output directory, normalize
the filter, then dispatch on the input kind. In directory mode per-archive
errors are caught (lines 51-53) and the exit status stays zero; in
single-file mode the error propagates (`?` on line 59) and the exit status
is non-zero; an invalid path is a top-level error after the output
directory was already created (line 32 runs before line 38). -/
def runMain (cfg : MainCfg) : RunResult :=
  if !cfg.createDirOk then ⟨cfg.fs0, false, true⟩
  else
    let filter := normalizeExt cfg.extensionArg
    match cfg.input with
    | .dir children =>
      ⟨processDirChildren filter cfg.canWrite children cfg.fs0, true, false⟩
    | .file _ a =>
      match processArchive filter cfg.canWrite a cfg.fs0 with
      | (fs', none) => ⟨fs', true, false⟩
      | (fs', some _) => ⟨fs', true, true⟩
    | .invalid => ⟨cfg.fs0, true, true⟩

/-- Spec-side predicate, stated from the specification's words: an entry is
written iff it is a file-type entry, its path does not contain `__MACOSX`,
and its lower-cased extension equals the (already normalized) filter. -/
def specShouldWrite (filter : String) (e : ZipEntry) : Bool :=
  e.isFile && !(strContains e.name "__MACOSX") &&
    (match rustExtension e.name with
     | some x => rustToLowercase x == filter
     | none => false)

/-- Spec-side extension extractor, stated from the claim's words: the
substring after the final `.` in the final path segment, if that segment
contains a `.` at all. -/
def claimExtOfSeg (f : String) : Option String :=
  match splitOnChar '.' f.data with
  | [] => none
  | [_] => none
  | _ :: rest => (rest.getLast?).map String.mk

/-- Spec-side extension of a whole entry name, per the claim's words. -/
def claimExtension (s : String) : Option String :=
  (rustFileName s).bind claimExtOfSeg

/-- A file name whose only dot is its leading character (a hidden file such
as `.gitignore`): it splits on `.` into an empty group and one dot-free
group. -/
def leadingDotOnly (f : String) : Bool :=
  match splitOnChar '.' f.data with
  | [p, _] => p.isEmpty
  | _ => false

/-- Deterministic all-writes-succeed entry loop over plain entries, used to
state run-level properties on the success path. -/
def processEntriesD (filter : String) : List ZipEntry → FS → FS
  | [], fs => fs
  | e :: rest, fs =>
    processEntriesD filter rest
      (match processEntry filter (fun _ => true) e fs with
       | .ok fs' => fs'
       | .error _ => fs)

/-- Writing under `m` changes exactly the contents looked up at `m`. -/
theorem fsGet_write (fs : FS) (m n : String) (d : Bytes) :
    fsGet (fsWrite fs m d) n = if m == n then some d else fsGet fs n := by
  unfold fsGet fsWrite
  rw [List.find?]
  by_cases h : m = n
  · simp [h]
  · have hb : (m == n) = false := by
      simpa using h
    simp [hb]

set_option linter.unnecessarySeqFocus false in
/-- With every write succeeding, one loop iteration never errors, and it
writes the entry's bytes under its basename exactly when the entry is a
`__MACOSX`-free file whose lower-cased extension equals the filter. -/
theorem processEntry_true (filter : String) (e : ZipEntry) (fs : FS) :
    processEntry filter (fun _ => true) e fs =
      .ok (match rustFileName e.name with
           | some b => if specShouldWrite filter e then fsWrite fs b e.data else fs
           | none => fs) := by
  unfold processEntry specShouldWrite
  cases hM : strContains e.name "__MACOSX" <;>
    cases hF : e.isFile <;>
      cases hE : rustExtension e.name <;>
        cases hN : rustFileName e.name <;>
          simp [hM, hF, hE, hN] <;> split <;> rfl

/-- The fallible entry loop over always-readable entries with every write
succeeding agrees with the deterministic loop and reports no error. -/
theorem processEntries_mapOk (filter : String) (l : List ZipEntry) (fs : FS) :
    processEntries filter (fun _ => true) (l.map .ok) fs =
      (processEntriesD filter l fs, none) := by
  induction l generalizing fs with
  | nil => rfl
  | cons e rest ih =>
    simp only [List.map_cons, processEntries, processEntriesD, entryStep,
      processEntry_true]
    exact ih _

/-- Processing a concatenation of entry lists processes the parts in order,
threading the output directory through. -/
theorem processEntriesD_append (filter : String) (l₁ l₂ : List ZipEntry)
    (fs : FS) :
    processEntriesD filter (l₁ ++ l₂) fs =
      processEntriesD filter l₂ (processEntriesD filter l₁ fs) := by
  induction l₁ generalizing fs with
  | nil => rfl
  | cons e rest ih =>
    simp only [List.cons_append, processEntriesD]
    exact ih _

/-- What a lookup sees after the deterministic loop: the bytes of the last
processed entry that writes to that basename, else the prior contents. -/
theorem fsGet_processEntriesD (filter : String) (l : List ZipEntry) (fs : FS)
    (b : String) :
    fsGet (processEntriesD filter l fs) b =
      (match (l.filter (fun e => specShouldWrite filter e &&
           (rustFileName e.name == some b))).getLast? with
       | some e => some e.data
       | none => fsGet fs b) := by
  induction l generalizing fs with
  | nil => rfl
  | cons e rest ih =>
    by_cases hP : (specShouldWrite filter e &&
        (rustFileName e.name == some b)) = true
    · have hand : specShouldWrite filter e = true ∧ rustFileName e.name = some b := by
        simpa using hP
      have hsw := hand.1
      have hfn := hand.2
      have hstep : processEntriesD filter (e :: rest) fs =
          processEntriesD filter rest (fsWrite fs b e.data) := by
        simp only [processEntriesD, processEntry_true, hfn, hsw, if_true]
      rw [hstep, ih, List.filter_cons]
      simp only [hP, if_true]
      cases hR : List.filter (fun e => specShouldWrite filter e &&
          (rustFileName e.name == some b)) rest with
      | nil => simp [fsGet_write]
      | cons x xs =>
        rw [List.getLast?_cons_cons]
        cases hG : (x :: xs).getLast? with
        | none => exact absurd (List.getLast?_eq_none_iff.mp hG) (by simp)
        | some y => rfl
    · have hstep : processEntriesD filter (e :: rest) fs =
          processEntriesD filter rest
            (match rustFileName e.name with
             | some b' =>
               if specShouldWrite filter e then fsWrite fs b' e.data else fs
             | none => fs) := by
        simp only [processEntriesD, processEntry_true]
      rw [hstep, ih, List.filter_cons, if_neg hP]
      cases hG : List.filter (fun e => specShouldWrite filter e &&
          (rustFileName e.name == some b)) rest |>.getLast? with
      | some y => rfl
      | none =>
        cases hfn : rustFileName e.name with
        | none => rfl
        | some b' =>
          cases hsw : specShouldWrite filter e with
          | false => simp
          | true =>
            have hbb : (b' == b) = false := by
              cases hq : b' == b with
              | false => rfl
              | true =>
                have hb : b' = b := eq_of_beq hq
                subst hb
                exact absurd (by simp [hsw, hfn]) hP
            simp [fsGet_write, hbb]

/-- C1: an entry is written exactly when it is a file-type entry, its stored
name does not contain `__MACOSX`, and its lower-cased extension equals the
normalized filter (case-insensitive exact match); when it is written, the
bytes stored under its basename are exactly the entry's byte stream. -/
theorem written_iff_matches (raw : String) (e : ZipEntry) (fs : FS) :
    processEntry (normalizeExt raw) (fun _ => true) e fs =
      .ok (match rustFileName e.name with
           | some b =>
             if specShouldWrite (normalizeExt raw) e then fsWrite fs b e.data
             else fs
           | none => fs) ∧
    (specShouldWrite (normalizeExt raw) e = true →
      ∃ b, rustFileName e.name = some b ∧
        fsGet (fsWrite fs b e.data) b = some e.data) := by
  refine ⟨processEntry_true _ e fs, fun hw => ?_⟩
  cases hN : rustFileName e.name with
  | none =>
    exfalso
    unfold specShouldWrite rustExtension at hw
    rw [hN] at hw
    simp at hw
  | some b => exact ⟨b, rfl, by simp [fsGet_write]⟩

/-- C1 witness: filter `.TXT` against entry `docs/Note.txt` writes exactly
the entry's bytes under `Note.txt`. -/
theorem written_iff_matches_witness :
    processEntry (normalizeExt ".TXT") (fun _ => true)
        ⟨"docs/Note.txt", true, [1, 2, 3]⟩ [] = .ok [("Note.txt", [1, 2, 3])] ∧
      fsGet [("Note.txt", [1, 2, 3])] "Note.txt" = some [1, 2, 3] := by
  obtain ⟨h1, h2⟩ :=
    written_iff_matches ".TXT" ⟨"docs/Note.txt", true, [1, 2, 3]⟩ []
  refine ⟨h1.trans rfl, ?_⟩
  obtain ⟨b, hb, hg⟩ := h2 rfl
  have h0 : rustFileName "docs/Note.txt" = some "Note.txt" := rfl
  rw [h0] at hb
  have hb2 : b = "Note.txt" := (Option.some.inj hb).symm
  subst hb2
  exact hg

/-- C2: with the output directory created, a directory-mode run exits zero
no matter what happens per archive; a failing archive inside the batch is
skipped with the surrounding batch unaffected; in single-file mode the exit
status is non-zero exactly when processing the one archive reported an
error. -/
theorem error_boundary_policy (extArg nm : String) (isf : Bool)
    (children c₁ c₂ : List DirChild) (cw : String → Bool) (fs : FS)
    (a : ArchiveOpen) (filter : String) :
    (runMain ⟨true, extArg, .dir children, cw, fs⟩).exitErr = false ∧
    processDirChildren filter cw (c₁ ++ ⟨nm, isf, .fail⟩ :: c₂) fs =
      processDirChildren filter cw (c₁ ++ c₂) fs ∧
    (runMain ⟨true, extArg, .file nm a, cw, fs⟩).exitErr =
      (processArchive (normalizeExt extArg) cw a fs).2.isSome := by
  refine ⟨rfl, ?_, ?_⟩
  · induction c₁ generalizing fs with
    | nil =>
      cases hs : selectZip ⟨nm, isf, .fail⟩ <;>
        simp [processDirChildren, processArchive, hs]
    | cons c₀ rest ih =>
      cases hs : selectZip c₀ <;> simp [processDirChildren, hs] <;>
        exact ih _
  · rcases hpa : processArchive (normalizeExt extArg) cw a fs with ⟨fs', o⟩
    cases o <;> simp [runMain, hpa]

/-- C3: an entry whose stored name contains `__MACOSX` anywhere is skipped
unconditionally: no error, no write, whatever its type, extension, or the
state of the write oracle. -/
theorem macosx_never_written (filter : String) (cw : String → Bool)
    (e : ZipEntry) (fs : FS) (h : strContains e.name "__MACOSX" = true) :
    processEntry filter cw e fs = .ok fs := by
  unfold processEntry
  rw [h]
  rfl

/-- C3 witness: a `__MACOSX` entry with a matching extension and a failing
write oracle is still skipped without error or write. -/
theorem macosx_never_written_witness :
    strContains "__MACOSX/img.png" "__MACOSX" = true ∧
      processEntry "png" (fun _ => false) ⟨"__MACOSX/img.png", true, [5]⟩ [] =
        .ok [] :=
  ⟨rfl, macosx_never_written "png" (fun _ => false) ⟨"__MACOSX/img.png", true, [5]⟩ [] rfl⟩

/-- C4: after a run, the bytes stored under a basename are those of the last
processed entry that matched the filter and resolved to that basename —
the earlier file is silently overwritten; archives processed in sequence
compose by threading the output directory, and with every write succeeding
no error is reported. -/
theorem last_writer_wins (filter : String) (l l₁ l₂ : List ZipEntry)
    (fs : FS) (b : String) :
    fsGet (processEntriesD filter l fs) b =
      (match (l.filter (fun e => specShouldWrite filter e &&
           (rustFileName e.name == some b))).getLast? with
       | some e => some e.data
       | none => fsGet fs b) ∧
    processEntriesD filter (l₁ ++ l₂) fs =
      processEntriesD filter l₂ (processEntriesD filter l₁ fs) ∧
    processEntries filter (fun _ => true) (l.map .ok) fs =
      (processEntriesD filter l fs, none) :=
  ⟨fsGet_processEntriesD filter l fs b,
    processEntriesD_append filter l₁ l₂ fs,
    processEntries_mapOk filter l fs⟩

/-- C5: a filter supplied with a leading dot behaves identically to the same
filter without it, for every input configuration. -/
theorem leading_dot_equivalent (cd : Bool) (e : String) (inp : InputKind)
    (cw : String → Bool) (fs : FS) :
    runMain ⟨cd, "." ++ e, inp, cw, fs⟩ = runMain ⟨cd, e, inp, cw, fs⟩ := rfl

/-- C6: the output directory is created before the input path is validated:
an invalid input exits non-zero with no file written but with the output
directory created; and a failed output-directory creation is fatal before
anything else happens. -/
theorem outdir_created_before_validation (extArg : String)
    (cw : String → Bool) (fs : FS) (inp : InputKind) :
    runMain ⟨true, extArg, .invalid, cw, fs⟩ = ⟨fs, true, true⟩ ∧
      runMain ⟨false, extArg, inp, cw, fs⟩ = ⟨fs, false, true⟩ :=
  ⟨rfl, rfl⟩

/-- C7 counterexample: for the hidden file `.gitignore` the claim's
extraction rule (substring after the final dot of the final segment) yields
`gitignore`, which equals the normalized filter `gitignore`, so the claim
mandates a write; the program extracts no extension for it and writes
nothing. -/
theorem hidden_file_extension_cex :
    claimExtension ".gitignore" = some "gitignore" ∧
      (rustToLowercase "gitignore" == normalizeExt "gitignore") = true ∧
      rustExtension ".gitignore" = none ∧
      processEntry (normalizeExt "gitignore") (fun _ => true)
        ⟨".gitignore", true, [1]⟩ [] = .ok [] :=
  ⟨rfl, rfl, rfl, rfl⟩

/-- C7 amended: the extension compared against the filter is the substring
after the final dot of the final path segment, except that a final segment
whose only dot is its leading character (a hidden file) has no extension;
an entry with no extension is skipped silently with nothing written. -/
theorem extension_semantics_amended (s filter : String) (cw : String → Bool)
    (e : ZipEntry) (fs : FS) :
    rustExtension s =
      (match rustFileName s with
       | some f => if leadingDotOnly f then none else claimExtOfSeg f
       | none => none) ∧
    (rustExtension e.name = none → processEntry filter cw e fs = .ok fs) := by
  constructor
  · unfold rustExtension
    cases hN : rustFileName s with
    | none => rfl
    | some f =>
      have hne : f.data ≠ ['.', '.'] := by
        unfold rustFileName at hN
        cases hL : (pathSegments s).getLast? with
        | none => rw [hL] at hN; exact absurd hN (by simp)
        | some t =>
          simp only [hL] at hN
          by_cases ht : t = ['.', '.']
          · rw [if_pos (by simp [ht])] at hN
            exact absurd hN (by simp)
          · rw [if_neg (by simpa using ht)] at hN
            have hft : f = String.mk t := (Option.some.inj hN).symm
            rw [hft]
            simpa using ht
      show extOfFileName f = if leadingDotOnly f then none else claimExtOfSeg f
      unfold extOfFileName claimExtOfSeg leadingDotOnly
      rw [if_neg (by simpa using hne)]
      cases hsp : splitOnChar '.' f.data with
      | nil => rfl
      | cons p rest =>
        cases rest with
        | nil => rfl
        | cons q rest' =>
          cases rest' with
          | nil => cases hp : p.isEmpty <;> simp [hp]
          | cons r rest'' => simp
  · intro hnone
    simp only [processEntry, hnone]
    cases hM : strContains e.name "__MACOSX" <;> cases hF : e.isFile <;>
      simp [hM, hF]

/-- C7 witness: an entry with no dot in its final segment is skipped
silently. -/
theorem extension_semantics_amended_witness :
    rustExtension "notes/README" = none ∧
      processEntry "txt" (fun _ => false) ⟨"notes/README", true, [4]⟩ [] =
        .ok [] := by
  obtain ⟨h1, h2⟩ := extension_semantics_amended "notes/README" "txt"
    (fun _ => false) ⟨"notes/README", true, [4]⟩ []
  exact ⟨rfl, h2 rfl⟩

/-- C8: a failing entry read or write aborts the remainder of that archive:
once the loop errors at one entry, the result no longer depends on the
entries after it, and the error propagates out of the archive call. -/
theorem entry_failure_aborts (filter : String) (cw : String → Bool)
    (l₁ : List EntryRead) (r : EntryRead) (l₂ : List EntryRead)
    (fs fs₁ : FS) (er : ZErr)
    (h₁ : processEntries filter cw l₁ fs = (fs₁, none))
    (h₂ : entryStep filter cw r fs₁ = .error er) :
    processEntries filter cw (l₁ ++ r :: l₂) fs = (fs₁, some er) := by
  induction l₁ generalizing fs with
  | nil =>
    simp only [processEntries] at h₁
    have hfs : fs = fs₁ := congrArg Prod.fst h₁
    subst hfs
    simp only [List.nil_append, processEntries, h₂]
  | cons r₀ rest ih =>
    rw [List.cons_append]
    simp only [processEntries] at h₁ ⊢
    cases hs : entryStep filter cw r₀ fs with
    | ok fs' =>
      simp only [hs] at h₁ ⊢
      exact ih fs' h₁
    | error er₀ =>
      simp only [hs] at h₁
      exact absurd (congrArg Prod.snd h₁) (by simp)

/-- C8 witness: a write failure at the second entry keeps the first entry's
output, reports an `IOError`, and leaves the third entry unprocessed. -/
theorem entry_failure_aborts_witness :
    processEntries "txt" (fun s => s == "good.txt")
        ([EntryRead.ok ⟨"good.txt", true, [1]⟩] ++
          EntryRead.ok ⟨"bad.txt", true, [2]⟩ ::
            [EntryRead.ok ⟨"tail.txt", true, [3]⟩]) [] =
      ([("good.txt", [1])], some ZErr.ioError) :=
  entry_failure_aborts "txt" (fun s => s == "good.txt")
    [EntryRead.ok ⟨"good.txt", true, [1]⟩] (EntryRead.ok ⟨"bad.txt", true, [2]⟩)
    [EntryRead.ok ⟨"tail.txt", true, [3]⟩] [] [("good.txt", [1])] ZErr.ioError
    rfl rfl

/-- C9: in directory mode exactly the immediate children that are regular
files with extension case-insensitively equal to `zip` are processed (the
others are skipped with no effect); in single-file mode the given path is
processed regardless of its name. -/
theorem input_resolution (filter extArg nm₁ nm₂ : String)
    (cw : String → Bool) (children : List DirChild) (fs : FS)
    (a : ArchiveOpen) (c : DirChild) :
    processDirChildren filter cw children fs =
      processDirChildren filter cw (children.filter selectZip) fs ∧
    (selectZip c = true ↔ c.isFile = true ∧
      ∃ x, rustExtension c.name = some x ∧ asciiEqNoCase x "zip" = true) ∧
    runMain ⟨true, extArg, .file nm₁ a, cw, fs⟩ =
      runMain ⟨true, extArg, .file nm₂ a, cw, fs⟩ := by
  refine ⟨?_, ?_, rfl⟩
  · induction children generalizing fs with
    | nil => rfl
    | cons c₀ rest ih =>
      rw [List.filter_cons]
      cases hs : selectZip c₀ <;> simp [processDirChildren, hs] <;> exact ih _
  · unfold selectZip
    cases hF : c.isFile <;> cases hE : rustExtension c.name <;> simp [hF, hE]

/-- C9 witness: a regular file named `data.ZiP` is selected for processing. -/
theorem input_resolution_witness :
    selectZip ⟨"data.ZiP", true, ArchiveOpen.fail⟩ = true := by
  obtain ⟨-, hiff, -⟩ := input_resolution "txt" "e" "n1" "n2" (fun _ => true)
    [] [] ArchiveOpen.fail ⟨"data.ZiP", true, ArchiveOpen.fail⟩
  exact hiff.mpr ⟨rfl, "ZiP", rfl, rfl⟩

/-- C10: extracting an extension from an entry name guarantees a basename
exists, so the warning-and-skip branch for a missing file name is
unreachable; every matching entry reaches the write attempt. -/
theorem warning_branch_unreachable (s filter : String) (e : ZipEntry)
    (fs : FS) (cw : String → Bool) :
    ((rustExtension s).isSome = true → (rustFileName s).isSome = true) ∧
    (specShouldWrite filter e = true →
      ∃ b, rustFileName e.name = some b ∧
        processEntry filter cw e fs =
          (if cw b then .ok (fsWrite fs b e.data) else .error .ioError)) := by
  constructor
  · intro h
    unfold rustExtension at h
    cases hN : rustFileName s with
    | none => rw [hN] at h; simp at h
    | some f => rfl
  · intro hw
    unfold specShouldWrite at hw
    simp only [Bool.and_eq_true] at hw
    obtain ⟨⟨hF, hM'⟩, hmatch⟩ := hw
    have hM : strContains e.name "__MACOSX" = false := by
      cases hq : strContains e.name "__MACOSX"
      · rfl
      · rw [hq] at hM'; simp at hM'
    cases hE : rustExtension e.name with
    | none => rw [hE] at hmatch; simp at hmatch
    | some x =>
      simp only [hE] at hmatch
      cases hN : rustFileName e.name with
      | none =>
        exfalso
        unfold rustExtension at hE
        rw [hN] at hE
        simp at hE
      | some b =>
        refine ⟨b, rfl, ?_⟩
        simp only [processEntry, hM, hF, hE, hN, hmatch]
        simp

/-- C10 witness: `a/b.txt` yields both an extension and a basename, and the
matching entry is written. -/
theorem warning_branch_unreachable_witness :
    (rustFileName "a/b.txt").isSome = true ∧
      processEntry "txt" (fun _ => true) ⟨"a/b.txt", true, [9]⟩ [] =
        .ok [("b.txt", [9])] := by
  obtain ⟨h1, h2⟩ := warning_branch_unreachable "a/b.txt" "txt"
    ⟨"a/b.txt", true, [9]⟩ [] (fun _ => true)
  refine ⟨h1 rfl, ?_⟩
  obtain ⟨b, hb, hpe⟩ := h2 rfl
  have h0 : rustFileName "a/b.txt" = some "b.txt" := rfl
  rw [h0] at hb
  have hb2 : b = "b.txt" := (Option.some.inj hb).symm
  subst hb2
  exact hpe.trans rfl

end ZipExtract
